import Mathlib

/-!
Verification of the Little-Censor redaction pipeline.

Shallow embedding of `src/censor.rs`, `src/error.rs` and `src/lib.rs` of the
Little-Manager/Little-Censor repository.

Texts are modelled as `List Char` (Rust `String` iterated with `.chars()`,
i.e. Unicode scalar values); Rust byte lengths (`str::len`) are recovered with
`Char.utf8Size`, which is the number of UTF-8 bytes of a scalar value.
Occurrences of one valid UTF-8 string inside another always fall on character
boundaries, so a character-level model of `str::replace` is faithful to the
byte-level original.

The repository delegates regular-expression matching to the external `regex`
crate and profanity classification to the external `rustrict` crate.  Both are
modelled as injected capabilities, collected in the `Engine` structure: a
matcher is the function returning the list of match strings that
`Regex::find_iter` yields on a given buffer, `compile` is `Regex::new`
(`none` = compilation error), and `classify` is `rustrict::CensorStr::censor`.
Concrete instantiations used in counterexamples record the actual behaviour of
the fixed patterns of `censor.rs` on concrete inputs.
-/

deriving instance DecidableEq for Except

namespace LittleCensor

/-- The `Error` enum from `src/error.rs`: `EmptyWord`, `NoArgs` (the spec's
`MissingArgument`) and `InvalidRegex` (the spec's `InvalidPattern`). -/
inductive Error where
  | EmptyWord
  | NoArgs
  | InvalidRegex
deriving DecidableEq, Repr

/-- The `CensorTypes` enum from `src/censor.rs`, in declaration order; the derived
`Ord` instance orders the variants in this order. -/
inductive CensorTypes where
  | Link
  | IP
  | Email
  | Custom
deriving DecidableEq, Repr

/-- The `Censored` struct from `src/censor.rs`: original text, censored text, and the
`valid` flag computed as `sentence == censored`. -/
structure Censored where
  original : List Char
  censored : List Char
  valid : Bool
deriving DecidableEq, Repr

/-- The spec's `changed` flag of a `RedactionResult` is the negation of the
code's `valid` field (`valid = (original == censored)`,
`changed = (original != censored)`). -/
def Censored.changed (c : Censored) : Bool := !c.valid

/-- The external regex engine and vocabulary classifier, modelled as injected
capabilities (they live in the external `regex` and `rustrict` crates, not in
this repository).  `linkFind`, `ipFind`, `emailFind` return the list of match
strings `find_iter` yields for `LINK_REGEX`, `IP_REGEX`, `EMAIL_REGEX`;
`compile` models `Regex::new` (`none` = invalid pattern); `classify` models
`rustrict::CensorStr::censor`. -/
structure Engine where
  linkFind : List Char → List (List Char)
  ipFind : List Char → List (List Char)
  emailFind : List Char → List (List Char)
  compile : List Char → Option (List Char → List (List Char))
  classify : List Char → List Char

/-- Rust `str::len` of a character list: the total number of UTF-8 bytes. -/
def utf8Len (s : List Char) : Nat := (s.map Char.utf8Size).sum

/-- Scanner of Rust `str::replace` for a non-empty pattern `p :: ps`:
walk the text left to right; at each position, if the pattern starts here,
emit the replacement and skip past the pattern (the counter argument skips
the `ps.length` pattern characters that follow `p`); otherwise emit the
current character.  This replaces every non-overlapping occurrence,
leftmost first, exactly as `str::replace` does. -/
def replaceAllCore (p : Char) (ps rep : List Char) : List Char → Nat → List Char
  | [], _ => []
  | _ :: rest, k + 1 => replaceAllCore p ps rep rest k
  | c :: rest, 0 =>
    if (p :: ps).isPrefixOf (c :: rest) then
      rep ++ replaceAllCore p ps rep rest ps.length
    else
      c :: replaceAllCore p ps rep rest 0

/-- Rust `str::replace pat rep` on character lists.  For the empty pattern,
`str::replace` matches at every character boundary (so the result is
`rep` interleaved before, between and after all characters). -/
def replaceAll (pat rep s : List Char) : List Char :=
  match pat with
  | [] => rep ++ (s.map (fun c => c :: rep)).flatten
  | p :: ps => replaceAllCore p ps rep s 0

/-- The `regex_censor` function from `src/censor.rs`: collect the matches of the regex on
the buffer as it was before the pass, then for each match string `value`
(in order) rewrite the buffer with
`sentence = sentence.replace(value, "*".repeat(value.len()))`.
Note that `value.len()` is the byte length of the match and that
`str::replace` rewrites every occurrence of `value`, not only the span the
regex matched. -/
def regexCensor (find : List Char → List (List Char)) (sentence : List Char) :
    List Char :=
  let found := find sentence
  found.foldl (fun s v => replaceAll v (List.replicate (utf8Len v) '*') s) sentence

/-- Rust `Vec::sort` on `Vec<CensorTypes>` with the derived `Ord`
(declaration order `Link < IP < Email < Custom`): the result is the sorted
rearrangement, i.e. all `Link` elements first, then all `IP`, then all
`Email`, then all `Custom`, multiplicities preserved. -/
def sortTypes (l : List CensorTypes) : List CensorTypes :=
  List.replicate (l.count .Link) .Link ++ List.replicate (l.count .IP) .IP ++
    List.replicate (l.count .Email) .Email ++ List.replicate (l.count .Custom) .Custom

/-- Rust `Vec::dedup`: remove consecutive duplicate elements. -/
def dedupConsec : List CensorTypes → List CensorTypes
  | [] => []
  | [t] => [t]
  | t1 :: t2 :: rest =>
    if t1 = t2 then dedupConsec (t2 :: rest) else t1 :: dedupConsec (t2 :: rest)

/-- The `for typ in types` loop of `censor` in `src/censor.rs`: run one
masking pass per requested type over the shared buffer.  The `Custom` arm
evaluates `Regex::new(arg.as_ref().ok_or(Error::NoArgs)?)?`, so a missing
argument aborts with `NoArgs` and a failing compilation with
`InvalidRegex`. -/
def runTypes (E : Engine) (arg : Option (List Char)) :
    List CensorTypes → List Char → Except Error (List Char)
  | [], s => .ok s
  | .Link :: rest, s => runTypes E arg rest (regexCensor E.linkFind s)
  | .IP :: rest, s => runTypes E arg rest (regexCensor E.ipFind s)
  | .Email :: rest, s => runTypes E arg rest (regexCensor E.emailFind s)
  | .Custom :: rest, s =>
    match arg with
    | none => .error .NoArgs
    | some p =>
      match E.compile p with
      | none => .error .InvalidRegex
      | some find => runTypes E arg rest (regexCensor find s)

/-- The `fix_sentence` function from `src/censor.rs`: zip the classifier output with the
pre-classifier buffer, keeping the classifier's character where it is the
mask `'*'` and the original character otherwise; `zip` stops at the shorter
list. -/
def fixSentence (original censored : List Char) : List Char :=
  (censored.zip original).map fun p => if p.1 ≠ '*' then p.2 else p.1

/-- The `censor` function from `src/censor.rs`: sort and dedup the requested types, run
the masking passes, call the external classifier, reconcile with
`fix_sentence`, and build the `Censored` result with
`valid = (sentence == censored)`. -/
def censor (E : Engine) (sentence : List Char) (types : List CensorTypes)
    (arg : Option (List Char)) : Except Error Censored := do
  let canonical := dedupConsec (sortTypes types)
  let custom ← runTypes E arg canonical sentence
  let censored := E.classify custom
  let censored := fixSentence custom censored
  return { original := sentence, censored := censored, valid := sentence == censored }

/-- The `Vulgar` struct from `src/lib.rs`; the severity (`rustrict::Type`, an external
taxonomy) is an opaque type parameter. -/
structure Vulgar (τ : Type) where
  word : List Char
  word_type : τ

/-- The process-wide `rustrict` trie, modelled as an association list written
by `Trie::customize_default().set`. -/
abbrev Dict (τ : Type) := List (List Char × τ)

/-- Rust `Trie::customize_default().set(&word, type)`: commit one entry. -/
def dictSet {τ : Type} (d : Dict τ) (w : List Char) (t : τ) : Dict τ := (w, t) :: d

/-- The `add_words` function from `src/lib.rs`, with the global trie passed as explicit
state: iterate over the entries, returning `EmptyWord` at the first empty
word, otherwise committing the entry; the state reached so far survives an
error (the Rust loop mutates the process-wide trie in place). -/
def add_words {τ : Type} : List (Vulgar τ) → Dict τ → Dict τ × Except Error Unit
  | [], d => (d, .ok ())
  | v :: rest, d =>
    if v.word = [] then (d, .error .EmptyWord)
    else add_words rest (dictSet d v.word v.word_type)

/-- Modelled from the spec: the external vocabulary classifier
(`rustrict::CensorStr::censor`, not part of this repository) replaces profane
spans with mask characters while preserving layout; per the repository's own
tests the dictionary word `fuck` is masked as `f***` (first letter kept). -/
def rustrictModel (s : List Char) : List Char :=
  replaceAll ['f', 'u', 'c', 'k'] ['f', '*', '*', '*'] s

/-- An engine with inert matchers and the modelled `rustrict` classifier,
used for requests that ask for no pattern passes. -/
def plainEngine : Engine where
  linkFind := fun _ => []
  ipFind := fun _ => []
  emailFind := fun _ => []
  compile := fun _ => none
  classify := rustrictModel

/-- Recorded behaviour of `EMAIL_REGEX` (`[^@ \t\r\n]+@[^@ \t\r\n]+\.[^@ \t\r\n]+`)
on the buffer `é@a.b`: the whole buffer is one match (`é` is neither `@` nor
whitespace, and `a.b` contains the required dot).  The match has five
characters but six UTF-8 bytes (`é` is two bytes). -/
def emailFindAccent (s : List Char) : List (List Char) :=
  if s = ['é', '@', 'a', '.', 'b'] then [['é', '@', 'a', '.', 'b']] else []

/-- Recorded behaviour of `IP_REGEX` on the buffer `1.2.3.4 a1.2.3.4`: the
only match is the leading `1.2.3.4` (span 0..7).  The second occurrence is
not a match because `a1` provides no word boundary before the first octet. -/
def ipFindAlias (s : List Char) : List (List Char) :=
  if s = ('1' :: '.' :: '2' :: '.' :: '3' :: '.' :: '4' :: ' ' :: 'a' :: '1' :: '.' :: '2' :: '.' :: '3' :: '.' :: '4' :: []) then
    [['1', '.', '2', '.', '3', '.', '4']]
  else []

/-- Recorded behaviour of `EMAIL_REGEX` on the buffer `a@b.c@d.e` and on the
once-censored buffer `*****@d.e`: the first buffer's only match is `a@b.c`
(the character class `[^@ \t\r\n]` cannot cross the second `@`, and the
remainder `@d.e` contains no further match start), while the second buffer is
matched in its entirety, because `*` belongs to the class `[^@ \t\r\n]`. -/
def emailFindStarred (s : List Char) : List (List Char) :=
  if s = ('a' :: '@' :: 'b' :: '.' :: 'c' :: '@' :: 'd' :: '.' :: 'e' :: []) then
    [['a', '@', 'b', '.', 'c']]
  else if s = ('*' :: '*' :: '*' :: '*' :: '*' :: '@' :: 'd' :: '.' :: 'e' :: []) then
    [['*', '*', '*', '*', '*', '@', 'd', '.', 'e']]
  else []

/-- Engine used for the idempotence analysis: the email matcher records the
real `EMAIL_REGEX` behaviour on the two buffers involved, and the classifier
is the identity (`rustrict` finds no vocabulary word in either buffer). -/
def starredEngine : Engine where
  linkFind := fun _ => []
  ipFind := fun _ => []
  emailFind := emailFindStarred
  compile := fun _ => none
  classify := fun s => s

/-! ## Helper lemmas -/

theorem replaceAllCore_skip (p : Char) (ps rep : List Char) :
    ∀ (s : List Char) (k : Nat),
      replaceAllCore p ps rep s k = replaceAllCore p ps rep (s.drop k) 0 := by
  intro s
  induction s with
  | nil => intro k; cases k <;> rfl
  | cons c rest ih =>
    intro k
    cases k with
    | zero => rfl
    | succ k => simpa [replaceAllCore] using ih k

theorem utf8Len_append (a b : List Char) :
    utf8Len (a ++ b) = utf8Len a + utf8Len b := by
  simp [utf8Len]

theorem utf8Len_cons (c : Char) (s : List Char) :
    utf8Len (c :: s) = c.utf8Size + utf8Len s := by
  simp [utf8Len]

theorem utf8Len_replicate_star (n : Nat) :
    utf8Len (List.replicate n '*') = n := by
  induction n with
  | zero => rfl
  | succ n ih =>
    rw [List.replicate_succ, utf8Len_cons, ih]
    have hstar : ('*' : Char).utf8Size = 1 := by decide
    omega

theorem utf8Len_eq_zero {s : List Char} (h : utf8Len s = 0) : s = [] := by
  cases s with
  | nil => rfl
  | cons c rest =>
    exfalso
    have hc := Char.utf8Size_pos c
    simp [utf8Len] at h
    omega

theorem replaceAllCore_utf8Len (p : Char) (ps rep : List Char)
    (hrep : utf8Len rep = utf8Len (p :: ps)) :
    ∀ (s : List Char), utf8Len (replaceAllCore p ps rep s 0) = utf8Len s := by
  suffices H : ∀ (n : Nat) (s : List Char), s.length ≤ n →
      utf8Len (replaceAllCore p ps rep s 0) = utf8Len s from
    fun s => H s.length s le_rfl
  intro n
  induction n with
  | zero =>
    intro s hs
    have : s = [] := List.eq_nil_of_length_eq_zero (Nat.le_zero.mp hs)
    subst this; rfl
  | succ n ih =>
    intro s hs
    match s with
    | [] => rfl
    | c :: rest =>
      by_cases hpre : (p :: ps).isPrefixOf (c :: rest)
      · obtain ⟨t, ht⟩ : (p :: ps) <+: (c :: rest) :=
          List.isPrefixOf_iff_prefix.mp hpre
        have hc : c = p := by injection ht with h1 h2; exact h1.symm
        have hrest : rest = ps ++ t := by injection ht with h1 h2; exact h2.symm
        rw [replaceAllCore, if_pos hpre, replaceAllCore_skip, utf8Len_append]
        have hdrop : rest.drop ps.length = t := by
          rw [hrest]; exact List.drop_left ps t
        rw [hdrop]
        have hlen : t.length ≤ n := by
          have h1 : rest.length = ps.length + t.length := by
            rw [hrest]; simp
          have h2 : rest.length ≤ n := by
            simpa using Nat.le_of_succ_le_succ hs
          omega
        rw [ih t hlen, hrep, hc, hrest, utf8Len_cons, utf8Len_cons, utf8Len_append]
        omega
      · rw [replaceAllCore, if_neg hpre]
        have hlen : rest.length ≤ n := by simpa using Nat.le_of_succ_le_succ hs
        rw [utf8Len_cons, utf8Len_cons, ih rest hlen]

theorem flatten_map_singleton (s : List Char) :
    (s.map (fun c => [c])).flatten = s := by
  induction s with
  | nil => rfl
  | cons c rest ih => simp [ih]

theorem replaceAll_utf8Len (pat rep : List Char)
    (hrep : utf8Len rep = utf8Len pat) (s : List Char) :
    utf8Len (replaceAll pat rep s) = utf8Len s := by
  match pat with
  | [] =>
    have : rep = [] := utf8Len_eq_zero (by simpa [utf8Len] using hrep)
    subst this
    simp [replaceAll, flatten_map_singleton]
  | p :: ps =>
    exact replaceAllCore_utf8Len p ps rep hrep s

theorem replaceAll_of_no_occurrence (pat rep : List Char) (hpat : pat ≠ []) :
    ∀ (s : List Char), ¬ pat <:+: s → replaceAll pat rep s = s := by
  match pat with
  | [] => exact absurd rfl hpat
  | p :: ps =>
    intro s
    induction s with
    | nil => intro _; rfl
    | cons c rest ih =>
      intro hinf
      have hpre : ¬ (p :: ps).isPrefixOf (c :: rest) := by
        intro h
        have hpfx := List.isPrefixOf_iff_prefix.mp h
        exact hinf <| List.IsPrefix.isInfix hpfx
      have hrest : ¬ (p :: ps) <:+: rest := fun h => hinf <| List.infix_cons h
      show replaceAllCore p ps rep (c :: rest) 0 = c :: rest
      rw [replaceAllCore, if_neg hpre]
      have := ih hrest
      simpa [replaceAll] using this

theorem replaceAll_cons_head (p : Char) (ps rep b : List Char) :
    replaceAll (p :: ps) rep ((p :: ps) ++ b) = rep ++ replaceAll (p :: ps) rep b := by
  show replaceAllCore p ps rep (p :: (ps ++ b)) 0 = rep ++ replaceAllCore p ps rep b 0
  have hpre : (p :: ps).isPrefixOf (p :: (ps ++ b)) := by
    exact List.isPrefixOf_iff_prefix.mpr ⟨b, by simp⟩
  rw [replaceAllCore, if_pos hpre, replaceAllCore_skip, List.drop_left]

theorem replaceAll_append_left (p : Char) (ps rep : List Char) :
    ∀ (a t : List Char),
      (∀ q, q < a.length → ¬ (p :: ps) <+: ((a ++ t).drop q)) →
      replaceAll (p :: ps) rep (a ++ t) = a ++ replaceAll (p :: ps) rep t := by
  intro a
  induction a with
  | nil => intro t _; simp
  | cons c a' ih =>
    intro t h
    have hpre : ¬ (p :: ps).isPrefixOf (c :: (a' ++ t)) := by
      intro hp
      exact h 0 (by simp) (by simpa using List.isPrefixOf_iff_prefix.mp hp)
    show replaceAllCore p ps rep (c :: (a' ++ t)) 0 = c :: (a' ++ replaceAll (p :: ps) rep t)
    rw [replaceAllCore, if_neg hpre]
    have h' : ∀ q, q < a'.length → ¬ (p :: ps) <+: ((a' ++ t).drop q) := by
      intro q hq
      have := h (q + 1) (by simp; omega)
      simpa using this
    have := ih t h'
    simp [replaceAll] at this
    rw [this]
    rfl

theorem fixSentence_self (c : List Char) : fixSentence c c = c := by
  induction c with
  | nil => rfl
  | cons a rest ih =>
    show (if a ≠ '*' then a else a) :: fixSentence rest rest = a :: rest
    rw [ite_self, ih]

theorem dedupConsec_replicate_append (a : CensorTypes) :
    ∀ (n : Nat) (l : List CensorTypes), (∀ x ∈ l, x ≠ a) →
      dedupConsec (List.replicate n a ++ l) =
        (if n = 0 then [] else [a]) ++ dedupConsec l := by
  intro n
  induction n with
  | zero => intro l _; simp
  | succ n ih =>
    intro l hl
    cases n with
    | zero =>
      simp only [List.replicate, List.nil_append, List.cons_append, if_neg (Nat.one_ne_zero)]
      cases l with
      | nil => rfl
      | cons b l' =>
        have hb : b ≠ a := hl b (List.mem_cons_self b l')
        show dedupConsec (a :: b :: l') = [a] ++ dedupConsec (b :: l')
        rw [dedupConsec, if_neg (fun h => hb h.symm)]
        rfl
    | succ m =>
      have step : dedupConsec (List.replicate (m + 2) a ++ l) =
          dedupConsec (List.replicate (m + 1) a ++ l) := by
        show dedupConsec (a :: a :: (List.replicate m a ++ l)) =
          dedupConsec (a :: (List.replicate m a ++ l))
        rw [dedupConsec, if_pos rfl]
      rw [step, ih l hl]
      simp

theorem mem_dedupConsec {t : CensorTypes} :
    ∀ {l : List CensorTypes}, t ∈ dedupConsec l ↔ t ∈ l := by
  intro l
  induction l with
  | nil => simp [dedupConsec]
  | cons a l ih =>
    cases l with
    | nil => simp [dedupConsec]
    | cons b l' =>
      rw [dedupConsec]
      by_cases hab : a = b
      · subst hab
        rw [if_pos rfl]
        rw [ih]
        simp
      · rw [if_neg hab]
        simp only [List.mem_cons] at ih ⊢
        rw [ih]

/-- The canonical pass list produced by `types.sort(); types.dedup()`:
one pass per requested type, in declaration order
`Link`, `IP`, `Email`, `Custom`. -/
theorem canonical_eq (l : List CensorTypes) :
    dedupConsec (sortTypes l) =
      (if CensorTypes.Link ∈ l then [CensorTypes.Link] else []) ++
      (if CensorTypes.IP ∈ l then [CensorTypes.IP] else []) ++
      (if CensorTypes.Email ∈ l then [CensorTypes.Email] else []) ++
      (if CensorTypes.Custom ∈ l then [CensorTypes.Custom] else []) := by
  have memR : ∀ (n : Nat) (a x : CensorTypes), x ∈ List.replicate n a → x = a := by
    intro n a x hx
    exact (List.mem_replicate.mp hx).2
  have hcount : ∀ (a : CensorTypes), (if l.count a = 0 then ([] : List CensorTypes) else [a]) =
      (if a ∈ l then [a] else []) := by
    intro a
    by_cases hmem : a ∈ l
    · rw [if_pos hmem, if_neg]
      exact Nat.pos_iff_ne_zero.mp (List.count_pos_iff.mpr hmem)
    · rw [if_neg hmem, if_pos]
      exact List.count_eq_zero.mpr hmem
  rw [sortTypes]
  rw [List.append_assoc, List.append_assoc]
  rw [dedupConsec_replicate_append CensorTypes.Link _ _ (by
    intro x hx
    simp only [List.mem_append] at hx
    rcases hx with hx | hx | hx <;> rw [memR _ _ _ hx] <;> intro h <;> exact absurd h (by decide))]
  rw [dedupConsec_replicate_append CensorTypes.IP _ _ (by
    intro x hx
    simp only [List.mem_append] at hx
    rcases hx with hx | hx <;> rw [memR _ _ _ hx] <;> intro h <;> exact absurd h (by decide))]
  rw [dedupConsec_replicate_append CensorTypes.Email _ _ (by
    intro x hx
    rw [memR _ _ _ hx]
    intro h
    exact absurd h (by decide))]
  rw [show (List.replicate (l.count CensorTypes.Custom) CensorTypes.Custom) =
      List.replicate (l.count CensorTypes.Custom) CensorTypes.Custom ++ [] by simp]
  rw [dedupConsec_replicate_append CensorTypes.Custom _ [] (by simp)]
  have hrep : ∀ (n : Nat) (a : CensorTypes), List.replicate n a = [] ↔ n = 0 := by
    intro n a; cases n <;> simp
  simp only [List.count_eq_zero] at hcount ⊢
  rw [show dedupConsec [] = [] from rfl]
  rw [List.append_nil]
  have h1 := hcount CensorTypes.Link
  have h2 := hcount CensorTypes.IP
  have h3 := hcount CensorTypes.Email
  have h4 := hcount CensorTypes.Custom
  simp only [List.count_eq_zero] at h1 h2 h3 h4
  rw [h1, h2, h3, h4]
  simp [List.append_assoc]

theorem runTypes_append (E : Engine) (arg : Option (List Char)) :
    ∀ (t1 t2 : List CensorTypes) (s : List Char),
      runTypes E arg (t1 ++ t2) s =
        (runTypes E arg t1 s).bind (fun buf => runTypes E arg t2 buf) := by
  intro t1
  induction t1 with
  | nil => intro t2 s; rfl
  | cons t t1' ih =>
    intro t2 s
    cases t with
    | Link => simpa [runTypes] using ih t2 (regexCensor E.linkFind s)
    | IP => simpa [runTypes] using ih t2 (regexCensor E.ipFind s)
    | Email => simpa [runTypes] using ih t2 (regexCensor E.emailFind s)
    | Custom =>
      cases arg with
      | none => rfl
      | some p =>
        cases hc : E.compile p with
        | none => simp only [runTypes, hc]; rfl
        | some find => simp [runTypes, hc, ih t2 (regexCensor find s)]

theorem runTypes_custom_free (E : Engine) (arg : Option (List Char)) :
    ∀ (ts : List CensorTypes) (s : List Char), (∀ t ∈ ts, t ≠ CensorTypes.Custom) →
      ∃ buf, runTypes E arg ts s = .ok buf := by
  intro ts
  induction ts with
  | nil => intro s _; exact ⟨s, rfl⟩
  | cons t ts' ih =>
    intro s h
    cases t with
    | Link => exact ih (regexCensor E.linkFind s) (fun x hx => h x (List.mem_cons_of_mem _ hx))
    | IP => exact ih (regexCensor E.ipFind s) (fun x hx => h x (List.mem_cons_of_mem _ hx))
    | Email => exact ih (regexCensor E.emailFind s) (fun x hx => h x (List.mem_cons_of_mem _ hx))
    | Custom => exact absurd rfl (h CensorTypes.Custom (List.mem_cons_self _ _))

theorem mem_sortTypes {t : CensorTypes} {l : List CensorTypes} :
    t ∈ sortTypes l ↔ t ∈ l := by
  rw [sortTypes]
  simp only [List.mem_append, List.mem_replicate]
  cases t <;> simp [← List.count_pos_iff, Nat.pos_iff_ne_zero]

/-! ## Claims -/

/-- C4: `fix_sentence` walks `pre_classify` (the `original` argument) and
`post_classify` (the `censored` argument) character by character: the result
has the length of the shorter input (the `zip` silently drops the longer
tail), and at every position in range it keeps `'*'` where the classifier
produced `'*'` and otherwise keeps the original character from
`pre_classify`. -/
theorem c4_fix_sentence_overlay (pre post : List Char) :
    (fixSentence pre post).length = min post.length pre.length ∧
    ∀ (i : Nat) (c o : Char), post[i]? = some c → pre[i]? = some o →
      (fixSentence pre post)[i]? = some (if c = '*' then '*' else o) := by
  constructor
  · simp [fixSentence]
  · intro i c o hc ho
    rw [fixSentence, List.getElem?_map]
    have hz : (post.zip pre)[i]? = some (c, o) :=
      List.getElem?_zip_eq_some.mpr ⟨hc, ho⟩
    rw [hz]
    by_cases h : c = '*'
    · subst h; simp
    · simp [h]

theorem c4_fix_sentence_overlay_witness :
    (fixSentence ['a', 'b', 'c'] ['*', 'x']).length = min 2 3 ∧
    (fixSentence ['a', 'b', 'c'] ['*', 'x'])[0]? = some '*' ∧
    (fixSentence ['a', 'b', 'c'] ['*', 'x'])[1]? = some 'b' := by
  refine ⟨(c4_fix_sentence_overlay ['a', 'b', 'c'] ['*', 'x']).1, ?_, ?_⟩
  · have := (c4_fix_sentence_overlay ['a', 'b', 'c'] ['*', 'x']).2 0 '*' 'a' rfl rfl
    simpa using this
  · have := (c4_fix_sentence_overlay ['a', 'b', 'c'] ['*', 'x']).2 1 'x' 'b' rfl rfl
    simpa using this

/-- C5: requesting the `Custom` type without a pattern argument fails with
`NoArgs` (the spec's `MissingArgument`), and requesting it with a pattern the
regex engine rejects fails with `InvalidRegex` (the spec's `InvalidPattern`);
both failures abort the call with an error and no result. -/
theorem c5_custom_error_paths :
    (∀ (E : Engine) (s : List Char),
        censor E s [CensorTypes.Custom] none = .error Error.NoArgs) ∧
    (∀ (E : Engine) (s p : List Char), E.compile p = none →
        censor E s [CensorTypes.Custom] (some p) = .error Error.InvalidRegex) := by
  constructor
  · intro E s; rfl
  · intro E s p h
    have hrun : runTypes E (some p) (dedupConsec (sortTypes [CensorTypes.Custom])) s =
        .error Error.InvalidRegex := by
      show runTypes E (some p) [CensorTypes.Custom] s = .error Error.InvalidRegex
      simp [runTypes, h]
    simp [censor, hrun]

theorem c5_custom_error_paths_witness :
    censor plainEngine ['h', 'i'] [CensorTypes.Custom] none = .error Error.NoArgs ∧
    censor plainEngine ['h', 'i'] [CensorTypes.Custom] (some ['(']) =
      .error Error.InvalidRegex := by
  exact ⟨c5_custom_error_paths.1 plainEngine ['h', 'i'],
    c5_custom_error_paths.2 plainEngine ['h', 'i'] ['('] rfl⟩

/-- C6: the censor output depends on the requested types only through the
set they form: any two request lists with the same members (in any order,
with any duplicates) produce identical results, because the list is sorted
into canonical order and deduplicated before the passes run. -/
theorem c6_set_semantics (E : Engine) (s : List Char) (arg : Option (List Char))
    (l1 l2 : List CensorTypes) (h : ∀ t, t ∈ l1 ↔ t ∈ l2) :
    censor E s l1 arg = censor E s l2 arg := by
  have key : dedupConsec (sortTypes l1) = dedupConsec (sortTypes l2) := by
    rw [canonical_eq, canonical_eq,
      if_congr (h .Link) rfl rfl, if_congr (h .IP) rfl rfl,
      if_congr (h .Email) rfl rfl, if_congr (h .Custom) rfl rfl]
  unfold censor
  rw [key]

theorem c6_set_semantics_witness :
    censor plainEngine ['x'] [CensorTypes.IP, CensorTypes.Link, CensorTypes.Link] none =
      censor plainEngine ['x'] [CensorTypes.Link, CensorTypes.IP] none :=
  c6_set_semantics plainEngine ['x'] none _ _ (by intro t; cases t <;> decide)

/-- C2: the `changed` flag of a censor result (the negation of the code's
`valid` field, which stores `sentence == censored`) is true exactly when the
censored text differs from the original; concretely, censoring `fuck world`
with no requested types yields `f*** world` with `valid = false`
(i.e. `changed = true`), as in the repository's `censor_word` test. -/
theorem c2_changed_flag :
    (∀ (E : Engine) (s : List Char) (l : List CensorTypes) (arg : Option (List Char))
        (r : Censored), censor E s l arg = .ok r →
        (r.changed = true ↔ r.censored ≠ r.original)) ∧
    censor plainEngine ['f', 'u', 'c', 'k', ' ', 'w', 'o', 'r', 'l', 'd'] [] none =
      .ok ⟨['f', 'u', 'c', 'k', ' ', 'w', 'o', 'r', 'l', 'd'],
        ['f', '*', '*', '*', ' ', 'w', 'o', 'r', 'l', 'd'], false⟩ := by
  constructor
  · intro E s l arg r h
    simp only [censor, Bind.bind, Except.bind] at h
    cases hrt : runTypes E arg (dedupConsec (sortTypes l)) s with
    | error e => rw [hrt] at h; exact absurd h (by simp)
    | ok custom =>
      rw [hrt] at h
      have hr := Except.ok.inj h
      subst hr
      simp [Censored.changed, Bool.not_eq_true', beq_eq_false_iff_ne, ne_comm]
  · decide

theorem c2_changed_flag_witness :
    (Censored.changed ⟨['f', 'u', 'c', 'k', ' ', 'w', 'o', 'r', 'l', 'd'],
        ['f', '*', '*', '*', ' ', 'w', 'o', 'r', 'l', 'd'], false⟩ = true ↔
      (['f', '*', '*', '*', ' ', 'w', 'o', 'r', 'l', 'd'] : List Char) ≠
        ['f', 'u', 'c', 'k', ' ', 'w', 'o', 'r', 'l', 'd']) :=
  c2_changed_flag.1 plainEngine _ [] none _ c2_changed_flag.2

/-- C7: `add_words` fails with `EmptyWord` exactly when some entry of the
batch has an empty word; on failure the entries preceding the first empty
entry have already been written to the process-wide dictionary (the loop
mutates the trie in place, so the batch is not transactional); and a call
whose only entry is empty leaves the dictionary unchanged. -/
theorem c7_add_words_first_empty :
    (∀ (τ : Type) (l : List (Vulgar τ)) (d : Dict τ),
        (add_words l d).2 = .error Error.EmptyWord ↔ ∃ v ∈ l, v.word = []) ∧
    (∀ (τ : Type) (l1 l2 : List (Vulgar τ)) (e : Vulgar τ) (d : Dict τ),
        e.word = [] → (∀ v ∈ l1, v.word ≠ []) →
        add_words (l1 ++ e :: l2) d =
          (l1.foldl (fun d v => dictSet d v.word v.word_type) d,
            .error Error.EmptyWord)) ∧
    (∀ (τ : Type) (e : Vulgar τ) (d : Dict τ), e.word = [] →
        add_words [e] d = (d, .error Error.EmptyWord)) := by
  have h1 : ∀ (τ : Type) (l : List (Vulgar τ)) (d : Dict τ),
      (add_words l d).2 = .error Error.EmptyWord ↔ ∃ v ∈ l, v.word = [] := by
    intro τ l
    induction l with
    | nil => intro d; simp [add_words]
    | cons v rest ih =>
      intro d
      by_cases hw : v.word = []
      · simp [add_words, hw]
      · simp [add_words, hw, ih (dictSet d v.word v.word_type)]
  have h2 : ∀ (τ : Type) (l1 l2 : List (Vulgar τ)) (e : Vulgar τ) (d : Dict τ),
      e.word = [] → (∀ v ∈ l1, v.word ≠ []) →
      add_words (l1 ++ e :: l2) d =
        (l1.foldl (fun d v => dictSet d v.word v.word_type) d,
          .error Error.EmptyWord) := by
    intro τ l1
    induction l1 with
    | nil => intro l2 e d he _; simp [add_words, he]
    | cons v l1' ih =>
      intro l2 e d he h
      have hv : v.word ≠ [] := h v (List.mem_cons_self v l1')
      simp only [List.cons_append, add_words, if_neg hv, List.foldl_cons]
      exact ih l2 e (dictSet d v.word v.word_type) he
        (fun x hx => h x (List.mem_cons_of_mem _ hx))
  refine ⟨h1, h2, ?_⟩
  intro τ e d he
  simpa using h2 τ [] [] e d he (by simp)

theorem c7_add_words_first_empty_witness :
    ((add_words [(⟨[], 0⟩ : Vulgar Nat)] ([] : Dict Nat)).2 = .error Error.EmptyWord) ∧
    add_words [(⟨['a'], 1⟩ : Vulgar Nat), ⟨[], 0⟩, ⟨['b'], 2⟩] ([] : Dict Nat) =
      ([(['a'], 1)], .error Error.EmptyWord) ∧
    add_words [(⟨[], 0⟩ : Vulgar Nat)] ([] : Dict Nat) = ([], .error Error.EmptyWord) := by
  refine ⟨?_, ?_, c7_add_words_first_empty.2.2 Nat ⟨[], 0⟩ [] rfl⟩
  · exact (c7_add_words_first_empty.1 Nat [⟨[], 0⟩] []).mpr ⟨⟨[], 0⟩, by simp, rfl⟩
  · have := c7_add_words_first_empty.2.1 Nat [⟨['a'], 1⟩] [⟨['b'], 2⟩] ⟨[], 0⟩ []
      rfl (by intro v hv; simp at hv; subst hv; simp)
    simpa [dictSet] using this

/-- C9: the canonical pass order produced by sorting is declaration order
`Link`, `IP`, `Email`, `Custom`, so whenever `Custom` is requested it is the
last pass: the caller-supplied pattern runs on the buffer already produced by
all requested built-in passes. -/
theorem c9_canonical_order_custom_last (l : List CensorTypes) :
    dedupConsec (sortTypes l) =
      (if CensorTypes.Link ∈ l then [CensorTypes.Link] else []) ++
      (if CensorTypes.IP ∈ l then [CensorTypes.IP] else []) ++
      (if CensorTypes.Email ∈ l then [CensorTypes.Email] else []) ++
      (if CensorTypes.Custom ∈ l then [CensorTypes.Custom] else []) ∧
    (CensorTypes.Custom ∈ l →
      ∀ (E : Engine) (arg : Option (List Char)) (s : List Char),
        runTypes E arg (dedupConsec (sortTypes l)) s =
          (runTypes E arg (dedupConsec (sortTypes l)).dropLast s).bind
            (fun buf => runTypes E arg [CensorTypes.Custom] buf)) := by
  refine ⟨canonical_eq l, ?_⟩
  intro hmem E arg s
  have hc : dedupConsec (sortTypes l) =
      ((if CensorTypes.Link ∈ l then [CensorTypes.Link] else []) ++
        (if CensorTypes.IP ∈ l then [CensorTypes.IP] else []) ++
        (if CensorTypes.Email ∈ l then [CensorTypes.Email] else [])) ++
      [CensorTypes.Custom] := by
    rw [canonical_eq l, if_pos hmem]
  rw [hc, List.dropLast_concat, runTypes_append]

theorem c9_canonical_order_custom_last_witness :
    dedupConsec (sortTypes [CensorTypes.Custom, CensorTypes.Link]) =
      [CensorTypes.Link, CensorTypes.Custom] ∧
    runTypes plainEngine none
        (dedupConsec (sortTypes [CensorTypes.Custom, CensorTypes.Link])) ['x'] =
      (runTypes plainEngine none
          (dedupConsec (sortTypes [CensorTypes.Custom, CensorTypes.Link])).dropLast
          ['x']).bind
        (fun buf => runTypes plainEngine none [CensorTypes.Custom] buf) := by
  refine ⟨by decide, ?_⟩
  exact (c9_canonical_order_custom_last [CensorTypes.Custom, CensorTypes.Link]).2
    (by decide) plainEngine none ['x']

/-- C10: when `Custom` is not among the requested types, `censor` always
succeeds — the built-in passes and the classifier cannot fail, and the
missing-argument / invalid-pattern checks live only in the `Custom` arm, so
even a supplied-but-invalid pattern argument is ignored without error. -/
theorem c10_no_custom_always_ok (E : Engine) (s : List Char)
    (l : List CensorTypes) (arg : Option (List Char))
    (h : CensorTypes.Custom ∉ l) :
    ∃ r, censor E s l arg = .ok r := by
  have hfree : ∀ t ∈ dedupConsec (sortTypes l), t ≠ CensorTypes.Custom := by
    intro t ht heq
    subst heq
    exact h (mem_sortTypes.mp (mem_dedupConsec.mp ht))
  obtain ⟨buf, hbuf⟩ := runTypes_custom_free E arg _ s hfree
  refine ⟨⟨s, fixSentence buf (E.classify buf),
    s == fixSentence buf (E.classify buf)⟩, ?_⟩
  simp [censor, hbuf]

theorem c10_no_custom_always_ok_witness :
    ∃ r, censor plainEngine ['h', 'i'] [CensorTypes.Link, CensorTypes.Email]
        (some ['(']) = .ok r :=
  c10_no_custom_always_ok plainEngine ['h', 'i']
    [CensorTypes.Link, CensorTypes.Email] (some ['(']) (by decide)

/-- C1 (counterexample): the mask run length is `value.len()`, a byte count.
`EMAIL_REGEX` matches the whole buffer `é@a.b` — five characters but six
UTF-8 bytes (`é` is two bytes) — and the masking pass replaces it with six
stars, so the buffer's character count grows from 5 to 6: the claimed
character-count preservation fails. -/
theorem c1_mask_length_counterexample :
    regexCensor emailFindAccent ['é', '@', 'a', '.', 'b'] = List.replicate 6 '*' ∧
    (['é', '@', 'a', '.', 'b'] : List Char).length = 5 ∧
    (regexCensor emailFindAccent ['é', '@', 'a', '.', 'b']).length ≠
      (['é', '@', 'a', '.', 'b'] : List Char).length := by
  decide

/-- C1 (amended): a Masking Pass replaces each matched span with a run of
`'*'` whose length equals the number of UTF-8 bytes of the matched span
(`"*".repeat(value.len())`), so for every matcher and every buffer the
buffer's UTF-8 byte count is preserved; the character count is preserved
only when every matched span is ASCII. -/
theorem c1_mask_preserves_byte_count (find : List Char → List (List Char))
    (s : List Char) : utf8Len (regexCensor find s) = utf8Len s := by
  show utf8Len ((find s).foldl
    (fun t v => replaceAll v (List.replicate (utf8Len v) '*') t) s) = utf8Len s
  generalize find s = ms
  induction ms generalizing s with
  | nil => rfl
  | cons v ms ih =>
    rw [List.foldl_cons, ih,
      replaceAll_utf8Len v _ (by rw [utf8Len_replicate_star]) s]

/-- C3 (counterexample): `regex_censor` rewrites with
`sentence.replace(value, stars)`, which replaces every occurrence of the
matched substring, not only the matched span.  On `1.2.3.4 a1.2.3.4`,
`IP_REGEX` matches only the leading `1.2.3.4` (positions 0–6; the second
occurrence has no word boundary after `a`), yet position 9 — outside the
only match — is rewritten from `'1'` to `'*'`. -/
theorem c3_frame_violation_counterexample :
    ipFindAlias
        ('1' :: '.' :: '2' :: '.' :: '3' :: '.' :: '4' :: ' ' :: 'a' :: '1' :: '.' :: '2' :: '.' :: '3' :: '.' :: '4' :: []) =
      [['1', '.', '2', '.', '3', '.', '4']] ∧
    regexCensor ipFindAlias
        ('1' :: '.' :: '2' :: '.' :: '3' :: '.' :: '4' :: ' ' :: 'a' :: '1' :: '.' :: '2' :: '.' :: '3' :: '.' :: '4' :: []) =
      ('*' :: '*' :: '*' :: '*' :: '*' :: '*' :: '*' :: ' ' :: 'a' :: '*' :: '*' :: '*' :: '*' :: '*' :: '*' :: '*' :: []) ∧
    ('1' :: '.' :: '2' :: '.' :: '3' :: '.' :: '4' :: ' ' :: 'a' :: '1' :: '.' :: '2' :: '.' :: '3' :: '.' :: '4' :: ([] : List Char))[9]? =
      some '1' ∧
    (regexCensor ipFindAlias
        ('1' :: '.' :: '2' :: '.' :: '3' :: '.' :: '4' :: ' ' :: 'a' :: '1' :: '.' :: '2' :: '.' :: '3' :: '.' :: '4' :: []))[9]? =
      some '*' := by
  decide

/-- C3 (amended): a Masking Pass rewrites every occurrence of each matched
string, so characters outside matched spans are guaranteed unchanged only
when no matched string occurs elsewhere in the buffer: if the matcher
reports the single match `v` and `v` occurs in `a ++ v ++ b` only at its
match position, the pass produces `a ++ stars ++ b`, leaving all characters
outside the span unchanged. -/
theorem c3_frame_for_unique_occurrence (find : List Char → List (List Char))
    (a v b : List Char) (hv : v ≠ [])
    (hfind : find (a ++ v ++ b) = [v])
    (h1 : ∀ q, q < a.length → ¬ v <+: ((a ++ v ++ b).drop q))
    (h2 : ¬ v <:+: b) :
    regexCensor find (a ++ v ++ b) =
      a ++ List.replicate (utf8Len v) '*' ++ b := by
  match v, hv with
  | p :: ps, _ =>
    show ((find (a ++ (p :: ps) ++ b)).foldl
      (fun t v => replaceAll v (List.replicate (utf8Len v) '*') t)
      (a ++ (p :: ps) ++ b)) = _
    rw [hfind, List.foldl_cons, List.foldl_nil]
    have h1' : ∀ q, q < a.length →
        ¬ (p :: ps) <+: ((a ++ ((p :: ps) ++ b)).drop q) := by
      intro q hq
      have := h1 q hq
      rwa [List.append_assoc] at this
    calc replaceAll (p :: ps) (List.replicate (utf8Len (p :: ps)) '*')
          (a ++ (p :: ps) ++ b)
        = replaceAll (p :: ps) (List.replicate (utf8Len (p :: ps)) '*')
          (a ++ ((p :: ps) ++ b)) := by rw [List.append_assoc]
      _ = a ++ replaceAll (p :: ps) (List.replicate (utf8Len (p :: ps)) '*')
          ((p :: ps) ++ b) := replaceAll_append_left p ps _ a _ h1'
      _ = a ++ (List.replicate (utf8Len (p :: ps)) '*' ++
          replaceAll (p :: ps) (List.replicate (utf8Len (p :: ps)) '*') b) := by
          rw [replaceAll_cons_head]
      _ = a ++ (List.replicate (utf8Len (p :: ps)) '*' ++ b) := by
          rw [replaceAll_of_no_occurrence (p :: ps) _ (List.cons_ne_nil p ps) b h2]
      _ = a ++ List.replicate (utf8Len (p :: ps)) '*' ++ b := by
          rw [List.append_assoc]

theorem c3_frame_for_unique_occurrence_witness :
    regexCensor
        (fun t => if t = ['x', ' ', 'a', '@', 'b', ' ', 'y'] then [['a', '@', 'b']] else [])
        (['x', ' '] ++ ['a', '@', 'b'] ++ [' ', 'y']) =
      ['x', ' '] ++ List.replicate (utf8Len ['a', '@', 'b']) '*' ++ [' ', 'y'] :=
  c3_frame_for_unique_occurrence _ ['x', ' '] ['a', '@', 'b'] [' ', 'y']
    (by decide) (by decide) (by decide) (by decide)

/-- C8 (counterexample): re-censoring is not idempotent for
`T = {Email}` ⊆ {Link, IP, Email}.  On `a@b.c@d.e`, `EMAIL_REGEX` matches
only `a@b.c`, giving censored text `*****@d.e`; but `*` belongs to the
character class `[^@ \t\r\n]`, so on the already-censored `*****@d.e` the
regex matches the entire buffer and a second censor call masks it to nine
stars, changing the censored text further. -/
theorem c8_not_idempotent_counterexample :
    censor starredEngine ('a' :: '@' :: 'b' :: '.' :: 'c' :: '@' :: 'd' :: '.' :: 'e' :: [])
        [CensorTypes.Email] none =
      .ok ⟨['a', '@', 'b', '.', 'c', '@', 'd', '.', 'e'],
        ['*', '*', '*', '*', '*', '@', 'd', '.', 'e'], false⟩ ∧
    censor starredEngine ('*' :: '*' :: '*' :: '*' :: '*' :: '@' :: 'd' :: '.' :: 'e' :: [])
        [CensorTypes.Email] none =
      .ok ⟨['*', '*', '*', '*', '*', '@', 'd', '.', 'e'],
        ['*', '*', '*', '*', '*', '*', '*', '*', '*'], false⟩ ∧
    (['*', '*', '*', '*', '*', '*', '*', '*', '*'] : List Char) ≠
      ['*', '*', '*', '*', '*', '@', 'd', '.', 'e'] := by
  decide

/-- C8 (amended): re-censoring an already-censored output is a no-op exactly
when the second run's pattern passes leave the censored buffer untouched
and the classifier fixes it; the built-in patterns do not guarantee this
(the email pattern accepts `'*'` in its character classes and can re-match
masked output). -/
theorem c8_idempotent_when_no_rematch (E : Engine) (c : List Char)
    (l : List CensorTypes) (arg : Option (List Char))
    (h1 : runTypes E arg (dedupConsec (sortTypes l)) c = .ok c)
    (h2 : E.classify c = c) :
    censor E c l arg = .ok ⟨c, c, true⟩ := by
  simp [censor, h1, h2, fixSentence_self]

theorem c8_idempotent_when_no_rematch_witness :
    censor plainEngine ['x'] [CensorTypes.Link] none = .ok ⟨['x'], ['x'], true⟩ :=
  c8_idempotent_when_no_rematch plainEngine ['x'] [CensorTypes.Link] none
    (by decide) (by decide)

end LittleCensor
